import Mathlib

/-!
Verification of the streaming TTS playback and word-synchronization engine
(`src/app/hooks/useSpeechGeneration.js` and the text-alignment utilities).

The JavaScript source is shallowly embedded: hook state becomes an explicit
`SessionState` record, the stream-read loop becomes a fold over the list of
reads, platform primitives used by the source (`String.split`, `atob`,
`JSON.parse`, `Blob` concatenation) are modelled by executable Lean
functions with their standard semantics, and floating-point times are
modelled by rationals (only order comparisons are performed on them).
-/

namespace TTS

/-- Word timing record as produced by the server:
`{ word, start_time, end_time }` (times in seconds, modelled as rationals). -/
structure WordTimestamp where
  word : String
  start_time : ℚ
  end_time : ℚ
deriving DecidableEq, Repr, Inhabited

/-- Interval containment test used everywhere in the source:
`time >= ts.start_time && time <= ts.end_time`. -/
def containsQ (w : WordTimestamp) (t : ℚ) : Prop :=
  w.start_time ≤ t ∧ t ≤ w.end_time

instance (w : WordTimestamp) (t : ℚ) : Decidable (containsQ w t) := by
  unfold containsQ; infer_instance

/-- Embedding of the scan in the 60 ms poll tick (useSpeechGeneration.js
lines 84-93): `foundIndex` starts at -1 and the `for` loop breaks at the
first timestamp whose range contains the current time. -/
def tickFoundIndex (timestamps : List WordTimestamp) (t : ℚ) : Int :=
  match timestamps.findIdx? (fun w => decide (containsQ w t)) with
  | some i => (i : Int)
  | none => -1

/-- One poll tick of the word tracker (lines 96-102): the index is updated
only when a match was found and it differs from the current index; the
resulting CurrentWordIndex value is returned. -/
def tick (timestamps : List WordTimestamp) (t : ℚ) (cur : Int) : Int :=
  if tickFoundIndex timestamps t ≠ -1 ∧ tickFoundIndex timestamps t ≠ cur then
    tickFoundIndex timestamps t
  else cur

/-- Specification-side predicate: `i` is the index of the first record whose
`[start_time, end_time]` interval contains `t`. -/
def IsFirstContaining (timestamps : List WordTimestamp) (t : ℚ) (i : Nat) : Prop :=
  i < timestamps.length ∧ containsQ (timestamps.getD i default) t ∧
    ∀ j, j < i → ¬ containsQ (timestamps.getD j default) t

instance (ts : List WordTimestamp) (t : ℚ) (i : Nat) :
    Decidable (IsFirstContaining ts t i) := by
  unfold IsFirstContaining; infer_instance

/-- Embedding of the word-index update shared by `handleSeek` (lines
518-525), `handleRewind` (lines 559-566) and `handleForward` (lines
580-587): when the timestamp list is non-empty, scan for the first record
containing the new time and set the index to it; otherwise leave the
current index unchanged.  Note the source never writes -1 here. -/
def scanWordIndex (timestamps : List WordTimestamp) (t : ℚ) (cur : Int) : Int :=
  if timestamps.length > 0 then
    match timestamps.findIdx? (fun w => decide (containsQ w t)) with
    | some i => (i : Int)
    | none => cur
  else cur

/-- CurrentWordIndex effect of `handleSeek` at the computed seek time. -/
def handleSeekIndex (timestamps : List WordTimestamp) (seekTime : ℚ) (cur : Int) : Int :=
  scanWordIndex timestamps seekTime cur

/-- New time computed by `handleRewind`: `Math.max(0, currentTime - 10)`. -/
def rewindNewTime (currentTime : ℚ) : ℚ := max 0 (currentTime - 10)

/-- CurrentWordIndex effect of `handleRewind`. -/
def handleRewindIndex (timestamps : List WordTimestamp) (currentTime : ℚ) (cur : Int) : Int :=
  scanWordIndex timestamps (rewindNewTime currentTime) cur

/-- New time computed by `handleForward`:
`Math.min(duration || 0, currentTime + 10)`. -/
def forwardNewTime (duration currentTime : ℚ) : ℚ := min duration (currentTime + 10)

/-- CurrentWordIndex effect of `handleForward`. -/
def handleForwardIndex (timestamps : List WordTimestamp) (duration currentTime : ℚ)
    (cur : Int) : Int :=
  scanWordIndex timestamps (forwardNewTime duration currentTime) cur

/-- Embedding of `getWordAtTime` (lines 592-602). -/
def getWordAtTime (timestamps : List WordTimestamp) (t : ℚ) : Option WordTimestamp :=
  timestamps.find? (fun w => decide (containsQ w t))

/-! ## Chunk buffer and blob assembly -/

/-- One audio chunk: a byte sequence (the result of base64-decoding one
fragment's `audio` field). -/
abbrev Chunk := List Nat

/-- Appending one chunk: `chunksRef.current.push(audioBytes)` (line 297). -/
def appendChunk (chunks : List Chunk) (c : Chunk) : List Chunk := chunks ++ [c]

/-- Byte content of `new Blob(chunksRef.current, ...)` (line 383): the
platform Blob constructor concatenates its parts in order. -/
def blobBytes (chunks : List Chunk) : List Nat := chunks.flatten

/-! ## Session state (hook state plus refs) -/

/-- State of the shared HTML audio element that the session mutates. -/
structure AudioElem where
  paused : Bool
  src : String
  currentTime : ℚ
  duration : ℚ
deriving DecidableEq, Repr, Inhabited

/-- State owned by the `useSpeechGeneration` hook: the `useState` fields and
the `useRef` handles.  Timer handles, blob URLs and abort controllers are
modelled as `Option` values (`none` = null / cleared). -/
structure SessionState where
  isGenerating : Bool
  isPlaying : Bool
  status : String
  error : String
  currentTime : ℚ
  duration : ℚ
  streamProgress : Nat
  isStreaming : Bool
  timestamps : List WordTimestamp
  currentWordIndex : Int
  originalText : String
  audioElement : Option AudioElem
  audioBlobUrl : Option String
  controller : Option Unit
  chunks : List Chunk
  totalChunks : Nat
  timestampInterval : Option Unit
  playbackStarted : Bool
deriving DecidableEq, Repr

/-- Initial hook state: the `useState` initialisers of lines 8-33 and the
initial (null/empty) ref values. -/
def initialState : SessionState where
  isGenerating := false
  isPlaying := false
  status := ""
  error := ""
  currentTime := 0
  duration := 0
  streamProgress := 0
  isStreaming := false
  timestamps := []
  currentWordIndex := -1
  originalText := ""
  audioElement := none
  audioBlobUrl := none
  controller := none
  chunks := []
  totalChunks := 0
  timestampInterval := none
  playbackStarted := false

/-- Embedding of `cleanup` (lines 121-147): pause the audio element and
clear its source, revoke the blob URL, clear the poll interval, reset the
playback-started flag, empty the chunk buffer, and reset the streaming,
timestamp and word-index state. -/
def cleanup (st : SessionState) : SessionState :=
  { st with
    audioElement := st.audioElement.map (fun a => { a with paused := true, src := "" })
    audioBlobUrl := none
    timestampInterval := none
    playbackStarted := false
    chunks := []
    totalChunks := 0
    isStreaming := false
    streamProgress := 0
    timestamps := []
    currentWordIndex := -1 }

/-- Embedding of `stopPlaying` (lines 150-160): abort and drop the
controller, run `cleanup`, then clear the playing and generating flags.
The source comment notes that `originalText` is deliberately kept. -/
def stopPlaying (st : SessionState) : SessionState :=
  let st1 := { st with controller := none }
  let st2 := cleanup st1
  { st2 with isPlaying := false, isGenerating := false }

/-- Observable effects emitted by the synchronous prefix of
`generateSpeech`; a `fetch` effect is the network call of line 235. -/
inductive Effect where
  | fetch (text : String)
deriving DecidableEq, Repr

/-- Validation message of line 165. -/
def validationMsg : String := "Please enter or upload some text first."

/-- True when a JavaScript string is blank, i.e. `!text.trim()`: `trim`
removes leading and trailing whitespace, and the result is falsy exactly
when it is empty, so the test holds iff every character is whitespace. -/
def trimBlank (text : String) : Bool := text.data.all Char.isWhitespace

/-- Audio element freshly created by `new Audio()` (line 186). -/
def newAudioElem : AudioElem where
  paused := true
  src := ""
  currentTime := 0
  duration := 0

/-- Embedding of the synchronous prefix of `generateSpeech` (lines 163-249),
up to and including issuing the network request: the blank-text guard, the
state resets, the `cleanup()` call, the fresh audio element and abort
controller, and the `fetch` effect.  The streaming read loop that follows
the fetch is modelled separately (see `streamFragments`). -/
def generateSpeech (st : SessionState) (text : String) : SessionState × List Effect :=
  if trimBlank text then
    ({ st with error := validationMsg }, [])
  else
    let st1 := { st with
      originalText := text
      error := ""
      status := "Generating speech..."
      isGenerating := true
      isStreaming := true
      streamProgress := 0
      timestamps := []
      currentWordIndex := -1 }
    let st2 := cleanup st1
    let st3 := { st2 with
      audioElement := some newAudioElem
      controller := some ()
      chunks := []
      totalChunks := 0 }
    (st3, [Effect.fetch text])

/-- Post-completion session state: stream finished (lines 341-344) with one
received chunk and one timestamp, playback already ended. -/
def completedState : SessionState where
  isGenerating := false
  isPlaying := false
  status := "Audio generation complete"
  error := ""
  currentTime := 2
  duration := 2
  streamProgress := 100
  isStreaming := false
  timestamps := [⟨"hello", 0, 1⟩]
  currentWordIndex := 0
  originalText := "Hello world."
  audioElement := some { paused := true, src := "blob:a", currentTime := 2, duration := 2 }
  audioBlobUrl := some "blob:a"
  controller := some ()
  chunks := [[65]]
  totalChunks := 1
  timestampInterval := none
  playbackStarted := true

/-! ## Word-tracker lemmas -/

/-- Bridge between the source's first-match linear scan and the
specification predicate `IsFirstContaining`. -/
theorem findIdx?_containsQ_iff (ts : List WordTimestamp) (t : ℚ) (i : Nat) :
    ts.findIdx? (fun w => decide (containsQ w t)) = some i ↔ IsFirstContaining ts t i := by
  rw [List.findIdx?_eq_some_iff_getElem]
  unfold IsFirstContaining
  constructor
  · rintro ⟨h, h1, h2⟩
    refine ⟨h, ?_, fun j hj => ?_⟩
    · rw [List.getD_eq_getElem ts default h]
      exact of_decide_eq_true h1
    · rw [List.getD_eq_getElem ts default (Nat.lt_trans hj h)]
      have := h2 j hj
      simpa using this
  · rintro ⟨h, h1, h2⟩
    refine ⟨h, ?_, fun j hj => ?_⟩
    · rw [List.getD_eq_getElem ts default h] at h1
      exact decide_eq_true h1
    · have := h2 j hj
      rw [List.getD_eq_getElem ts default (Nat.lt_trans hj h)] at this
      simpa using this

/-- Scan result when no record's interval contains the probed time. -/
theorem findIdx?_containsQ_none (ts : List WordTimestamp) (t : ℚ)
    (h : ∀ w ∈ ts, ¬ containsQ w t) :
    ts.findIdx? (fun w => decide (containsQ w t)) = none := by
  rw [List.findIdx?_eq_none_iff]
  intro x hx
  simpa using h x hx

/-- C2: one poll tick resolves the playback position to the index of the
first record whose `[start_time, end_time]` interval contains it, and
leaves the current index unchanged when no record's interval contains it. -/
theorem wordTracker_tick_resolves (ts : List WordTimestamp) (t : ℚ) (cur : Int)
    (hne : ts ≠ []) :
    (∀ i : Nat, IsFirstContaining ts t i → tick ts t cur = i) ∧
    ((∀ w ∈ ts, ¬ containsQ w t) → tick ts t cur = cur) := by
  constructor
  · intro i hi
    have hf := (findIdx?_containsQ_iff ts t i).mpr hi
    have hfound : tickFoundIndex ts t = (i : Int) := by
      unfold tickFoundIndex; rw [hf]
    unfold tick
    rw [hfound]
    by_cases hc : (i : Int) = cur
    · simp [hc]
    · have hne1 : (i : Int) ≠ -1 := by omega
      simp [hc, hne1]
  · intro hnone
    have hf := findIdx?_containsQ_none ts t hnone
    have hfound : tickFoundIndex ts t = -1 := by
      unfold tickFoundIndex; rw [hf]
    unfold tick
    rw [hfound]
    simp

/-- Witness for C2: polling at `t = 2` with `hello 0-1`, `world. 1-3`
resolves CurrentWordIndex to 1. -/
theorem wordTracker_tick_resolves_witness :
    tick [⟨"hello", 0, 1⟩, ⟨"world.", 1, 3⟩] 2 (-1) = 1 :=
  (wordTracker_tick_resolves [⟨"hello", 0, 1⟩, ⟨"world.", 1, 3⟩] 2 (-1)
    (by decide)).1 1 (by decide)

/-! ## Chunk buffer: assembled blob equals concatenation (C3) -/

/-- Folding `push` over a chunk sequence appends it to the buffer. -/
theorem foldl_appendChunk (cs : List Chunk) (init : List Chunk) :
    cs.foldl appendChunk init = init ++ cs := by
  induction cs generalizing init with
  | nil => simp
  | cons c cs ih => simp [appendChunk, ih]

/-- C3: after appending any non-empty sequence of chunks in arrival order,
the blob assembled by a flush has byte content equal to the concatenation
of the chunks in append order. -/
theorem assembledBlob_eq_concat (cs : List Chunk) (hne : cs ≠ []) :
    blobBytes (cs.foldl appendChunk []) = cs.flatten := by
  rw [foldl_appendChunk, List.nil_append]
  rfl

/-- Witness for C3 at the concrete chunk sequence `[[65], [66, 67]]`. -/
theorem assembledBlob_eq_concat_witness :
    blobBytes ([[65], [66, 67]].foldl appendChunk []) = [[65], [66, 67]].flatten :=
  assembledBlob_eq_concat [[65], [66, 67]] (by decide)

/-! ## Seek, rewind and forward word-index behaviour (C4) -/

/-- First-match characterisation of the shared seek/rewind/forward scan. -/
theorem scanWordIndex_first (ts : List WordTimestamp) (t : ℚ) (cur : Int)
    (i : Nat) (hi : IsFirstContaining ts t i) :
    scanWordIndex ts t cur = i := by
  have hf := (findIdx?_containsQ_iff ts t i).mpr hi
  have hlen : 0 < ts.length := Nat.lt_of_le_of_lt (Nat.zero_le i) hi.1
  unfold scanWordIndex
  rw [if_pos hlen, hf]

/-- The shared scan leaves the index unchanged when nothing matches. -/
theorem scanWordIndex_noMatch (ts : List WordTimestamp) (t : ℚ) (cur : Int)
    (h : ∀ w ∈ ts, ¬ containsQ w t) :
    scanWordIndex ts t cur = cur := by
  unfold scanWordIndex
  split
  · rw [findIdx?_containsQ_none ts t h]
  · rfl

/-- Counterexample for C4: with CurrentWordIndex 0 (an index ≥ 0), neither
seek, nor rewind, nor forward sets the index to -1: seek to `1` and rewind
from `11` (new time `1`) land inside `a 0-2` and set the index to that
record's index 0, and forward from `15` (new time `25`, no match) leaves
it 0. -/
theorem seekRewindForward_no_reset_counterexample :
    handleSeekIndex [⟨"a", 0, 2⟩] 1 0 = 0 ∧
    handleRewindIndex [⟨"a", 0, 2⟩] 11 0 = 0 ∧
    handleForwardIndex [⟨"a", 0, 2⟩] 30 15 0 = 0 ∧
    (0 : Int) ≠ -1 := by
  refine ⟨?_, ?_, ?_, by decide⟩
  · exact scanWordIndex_first [⟨"a", 0, 2⟩] 1 0 0 (by decide)
  · exact scanWordIndex_first [⟨"a", 0, 2⟩] (rewindNewTime 11) 0 0
      (by unfold rewindNewTime IsFirstContaining containsQ; norm_num)
  · exact scanWordIndex_noMatch [⟨"a", 0, 2⟩] (forwardNewTime 30 15) 0
      (by unfold forwardNewTime containsQ; norm_num)

/-- C4 (amended): seek, rewind and forward never force CurrentWordIndex to
-1; each immediately recomputes it, setting it to the index of the first
record whose interval contains the new time, and leaving it unchanged when
no record's interval contains the new time. -/
theorem seekRewindForward_recompute (ts : List WordTimestamp)
    (seekTime currentTime duration : ℚ) (cur : Int) :
    (∀ i : Nat, IsFirstContaining ts seekTime i → handleSeekIndex ts seekTime cur = i) ∧
    ((∀ w ∈ ts, ¬ containsQ w seekTime) → handleSeekIndex ts seekTime cur = cur) ∧
    (∀ i : Nat, IsFirstContaining ts (rewindNewTime currentTime) i →
      handleRewindIndex ts currentTime cur = i) ∧
    ((∀ w ∈ ts, ¬ containsQ w (rewindNewTime currentTime)) →
      handleRewindIndex ts currentTime cur = cur) ∧
    (∀ i : Nat, IsFirstContaining ts (forwardNewTime duration currentTime) i →
      handleForwardIndex ts duration currentTime cur = i) ∧
    ((∀ w ∈ ts, ¬ containsQ w (forwardNewTime duration currentTime)) →
      handleForwardIndex ts duration currentTime cur = cur) :=
  ⟨fun i hi => scanWordIndex_first ts seekTime cur i hi,
   fun h => scanWordIndex_noMatch ts seekTime cur h,
   fun i hi => scanWordIndex_first ts (rewindNewTime currentTime) cur i hi,
   fun h => scanWordIndex_noMatch ts (rewindNewTime currentTime) cur h,
   fun i hi => scanWordIndex_first ts (forwardNewTime duration currentTime) cur i hi,
   fun h => scanWordIndex_noMatch ts (forwardNewTime duration currentTime) cur h⟩

/-- Witness for the amended C4 at a concrete seek into `a 0-2` from
CurrentWordIndex 5. -/
theorem seekRewindForward_recompute_witness :
    handleSeekIndex [⟨"a", 0, 2⟩] 1 5 = 0 :=
  (seekRewindForward_recompute [⟨"a", 0, 2⟩] 1 0 0 5).1 0 (by decide)

/-! ## Blank-input validation (C7) -/

/-- C7: on blank (whitespace-only) input, `generateSpeech` only sets the
user-visible validation error message; every other piece of state is left
exactly as it was and no effect — in particular no network call — is
produced. -/
theorem generateSpeech_blank_validation (st : SessionState) (text : String)
    (h : trimBlank text = true) :
    generateSpeech st text = ({ st with error := validationMsg }, []) := by
  unfold generateSpeech
  simp [h]

/-- Witness for C7 on the whitespace-only input string. -/
theorem generateSpeech_blank_validation_witness :
    generateSpeech initialState "  " = ({ initialState with error := validationMsg }, []) :=
  generateSpeech_blank_validation initialState "  " (by decide)

/-! ## Stop idempotence (C8) and its frame (C10) -/

/-- Counterexample for C8: in a completed session (non-empty timestamps and
chunks, full progress) `stopPlaying` is not a no-op — it clears that
state. -/
theorem stop_completed_not_noop : stopPlaying completedState ≠ completedState := by
  decide

/-- C8 (amended): `stopPlaying` is idempotent — calling it twice from any
state produces the same end state as calling it once — and calling it in
the idle (initial) state is a no-op; in a completed session, however, it is
not a no-op (it clears chunks, timestamps and progress). -/
theorem stop_idempotent (st : SessionState) :
    stopPlaying (stopPlaying st) = stopPlaying st ∧
    stopPlaying initialState = initialState := by
  constructor
  · simp only [stopPlaying, cleanup, Option.map_map]
    cases st.audioElement <;> rfl
  · decide

/-- C10: `stopPlaying` clears the chunk buffer, the timestamp sequence, the
stream progress and the current word index, but leaves the stored original
text unchanged. -/
theorem stop_clears_buffers_keeps_text (st : SessionState) :
    (stopPlaying st).chunks = [] ∧ (stopPlaying st).timestamps = [] ∧
    (stopPlaying st).streamProgress = 0 ∧ (stopPlaying st).currentWordIndex = -1 ∧
    (stopPlaying st).originalText = st.originalText := by
  refine ⟨rfl, rfl, rfl, rfl, rfl⟩

/-! ## Wire-protocol model: JSON values, base64, newline splitting -/

/-- JSON values, the output domain of the platform `JSON.parse` used at
line 286; numbers are modelled as rationals. -/
inductive Json where
  | jnull
  | jbool (b : Bool)
  | jnum (q : ℚ)
  | jstr (s : String)
  | jarr (elems : List Json)
  | jobj (fields : List (String × Json))
deriving Repr, Inhabited

/-- Opening brace character. -/
def lbrace : Char := Char.ofNat 123

/-- Closing brace character. -/
def rbrace : Char := Char.ofNat 125

/-- JSON insignificant whitespace. -/
def isJsonWs (c : Char) : Bool := c = ' ' || c = '\n' || c = '\t' || c = '\r'

/-- Drop leading JSON whitespace. -/
def skipWsChars (cs : List Char) : List Char := cs.dropWhile isJsonWs

/-- Translation of a JSON string escape character. -/
def unescapeChar (c : Char) : Char :=
  if c = 'n' then '\n'
  else if c = 't' then '\t'
  else if c = 'r' then '\r'
  else if c = 'b' then Char.ofNat 8
  else if c = 'f' then Char.ofNat 12
  else c

/-- Parse the body of a JSON string after the opening quote, up to the
closing quote. -/
def parseStringBody : List Char → Option (String × List Char)
  | [] => none
  | '\\' :: e :: cs =>
    match parseStringBody cs with
    | some (s, rest) => some (⟨unescapeChar e :: s.data⟩, rest)
    | none => none
  | '"' :: cs => some ("", cs)
  | c :: cs =>
    match parseStringBody cs with
    | some (s, rest) => some (⟨c :: s.data⟩, rest)
    | none => none

/-- Parse a maximal run of decimal digits, returning value, digit count and
the remaining input. -/
def parseDigits : List Char → Nat → Nat → Nat × Nat × List Char
  | [], acc, cnt => (acc, cnt, [])
  | c :: cs, acc, cnt =>
    if c.isDigit then parseDigits cs (acc * 10 + (c.toNat - 48)) (cnt + 1)
    else (acc, cnt, c :: cs)

/-- Parse an exponent part after `e`/`E`. -/
def parseExpPart (cs : List Char) : Option (Int × List Char) :=
  let (eneg, cs1) :=
    match cs with
    | '-' :: rest => (true, rest)
    | '+' :: rest => (false, rest)
    | _ => (false, cs)
  match cs1 with
  | c :: _ =>
    if c.isDigit then
      let (ev, _, cs2) := parseDigits cs1 0 0
      some (if eneg then -(ev : Int) else (ev : Int), cs2)
    else none
  | [] => none

/-- Parse a JSON number.  The integer-only path builds the rational by a
cast alone (no rational arithmetic), so it evaluates by kernel reduction. -/
def parseNumber (cs : List Char) : Option (ℚ × List Char) :=
  let (neg, cs1) :=
    match cs with
    | '-' :: rest => (true, rest)
    | _ => (false, cs)
  match cs1 with
  | c :: _ =>
    if c.isDigit then
      let (ip, _, cs2) := parseDigits cs1 0 0
      match cs2 with
      | '.' :: rest =>
        let (fp, fc, cs3) := parseDigits rest 0 0
        let base : ℚ := (ip : ℚ) + (fp : ℚ) / ((10 : ℚ) ^ fc)
        match cs3 with
        | 'e' :: r1 =>
          match parseExpPart r1 with
          | some (ex, cs4) => some ((if neg then -base else base) * (10 : ℚ) ^ ex, cs4)
          | none => none
        | 'E' :: r1 =>
          match parseExpPart r1 with
          | some (ex, cs4) => some ((if neg then -base else base) * (10 : ℚ) ^ ex, cs4)
          | none => none
        | _ => some (if neg then -base else base, cs3)
      | 'e' :: r1 =>
        match parseExpPart r1 with
        | some (ex, cs4) => some ((if neg then -(ip : ℚ) else (ip : ℚ)) * (10 : ℚ) ^ ex, cs4)
        | none => none
      | 'E' :: r1 =>
        match parseExpPart r1 with
        | some (ex, cs4) => some ((if neg then -(ip : ℚ) else (ip : ℚ)) * (10 : ℚ) ^ ex, cs4)
        | none => none
      | _ => some (if neg then -(ip : ℚ) else (ip : ℚ), cs2)
    else none
  | [] => none

mutual

/-- Parse one JSON value (fuelled recursive-descent model of the platform
`JSON.parse`). -/
def parseJsonVal : Nat → List Char → Option (Json × List Char)
  | 0, _ => none
  | fuel + 1, cs =>
    match skipWsChars cs with
    | [] => none
    | c :: rest =>
      if c = '"' then
        match parseStringBody rest with
        | some (s, r) => some (Json.jstr s, r)
        | none => none
      else if c = '[' then
        match skipWsChars rest with
        | ']' :: r2 => some (Json.jarr [], r2)
        | cs2 => parseArrayItems fuel cs2 []
      else if c = lbrace then
        match skipWsChars rest with
        | d :: r2 => if d = rbrace then some (Json.jobj [], r2) else parseObjFields fuel (d :: r2) []
        | [] => none
      else if c = 't' then
        match rest with
        | 'r' :: 'u' :: 'e' :: r => some (Json.jbool true, r)
        | _ => none
      else if c = 'f' then
        match rest with
        | 'a' :: 'l' :: 's' :: 'e' :: r => some (Json.jbool false, r)
        | _ => none
      else if c = 'n' then
        match rest with
        | 'u' :: 'l' :: 'l' :: r => some (Json.jnull, r)
        | _ => none
      else
        match parseNumber (c :: rest) with
        | some (q, r) => some (Json.jnum q, r)
        | none => none

/-- Parse the items of a non-empty JSON array. -/
def parseArrayItems : Nat → List Char → List Json → Option (Json × List Char)
  | 0, _, _ => none
  | fuel + 1, cs, acc =>
    match parseJsonVal fuel cs with
    | some (v, r) =>
      match skipWsChars r with
      | ',' :: r2 => parseArrayItems fuel r2 (v :: acc)
      | ']' :: r2 => some (Json.jarr (v :: acc).reverse, r2)
      | _ => none
    | none => none

/-- Parse the fields of a non-empty JSON object. -/
def parseObjFields : Nat → List Char → List (String × Json) → Option (Json × List Char)
  | 0, _, _ => none
  | fuel + 1, cs, acc =>
    match skipWsChars cs with
    | '"' :: r =>
      match parseStringBody r with
      | some (k, r2) =>
        match skipWsChars r2 with
        | ':' :: r3 =>
          match parseJsonVal fuel r3 with
          | some (v, r4) =>
            match skipWsChars r4 with
            | ',' :: r5 => parseObjFields fuel r5 ((k, v) :: acc)
            | d :: r5 => if d = rbrace then some (Json.jobj (((k, v) :: acc).reverse), r5) else none
            | [] => none
          | none => none
        | _ => none
      | none => none
    | _ => none

end

/-- Model of `JSON.parse(line)`: parse one value and require only trailing
whitespace after it. -/
def parseJson (line : List Char) : Option Json :=
  match parseJsonVal (line.length + 1) line with
  | some (v, rest) => if (skipWsChars rest).isEmpty then some v else none
  | none => none

/-- Property access `obj.name` on a parsed JSON value; with duplicate keys
the last occurrence wins, as in `JSON.parse`. -/
def getField (j : Json) (name : String) : Option Json :=
  match j with
  | Json.jobj fields => List.lookup name fields.reverse
  | _ => none

/-- JavaScript truthiness of a JSON value. -/
def jsTruthy : Json → Bool
  | Json.jnull => false
  | Json.jbool b => b
  | Json.jnum q => decide (q ≠ 0)
  | Json.jstr s => decide (s ≠ "")
  | Json.jarr _ => true
  | Json.jobj _ => true

/-- Value of one base64 alphabet character (`A-Z`, `a-z`, `0-9`, `+`,
`/`); `none` for any other character, `=` included. -/
def b64Val (c : Char) : Option Nat :=
  if 'A' ≤ c ∧ c ≤ 'Z' then some (c.toNat - 65)
  else if 'a' ≤ c ∧ c ≤ 'z' then some (c.toNat - 71)
  else if '0' ≤ c ∧ c ≤ '9' then some (c.toNat + 4)
  else if c = '+' then some 62
  else if c = '/' then some 63
  else none

/-- Decode a whitespace- and padding-stripped base64 text: full quartets
give three bytes, a final pair or triple gives one or two bytes with the
leftover bits discarded, and a single leftover character or any character
outside the alphabet is an error (`none`), modelling the
`InvalidCharacterError` thrown by the platform `atob`. -/
def b64DecodeChars : List Char → Option (List Nat)
  | [] => some []
  | [_] => none
  | [a, b] =>
    match b64Val a, b64Val b with
    | some va, some vb => some [va * 4 + vb / 16]
    | _, _ => none
  | [a, b, c] =>
    match b64Val a, b64Val b, b64Val c with
    | some va, some vb, some vc => some [va * 4 + vb / 16, (vb % 16) * 16 + vc / 4]
    | _, _, _ => none
  | a :: b :: c :: d :: rest =>
    match b64Val a, b64Val b, b64Val c, b64Val d, b64DecodeChars rest with
    | some va, some vb, some vc, some vd, some bytes =>
      some ((va * 4 + vb / 16) :: ((vb % 16) * 16 + vc / 4) :: ((vc % 4) * 64 + vd) :: bytes)
    | _, _, _, _, _ => none

/-- ASCII whitespace, which the platform `atob` strips before decoding. -/
def isB64Ws (c : Char) : Bool :=
  c = ' ' || c = '\t' || c = '\n' || c = Char.ofNat 12 || c = '\r'

/-- Strip trailing base64 padding: when the (whitespace-stripped) length is
a multiple of four, up to two trailing `=` are removed; any other `=` is
left in place and fails the alphabet check. -/
def stripB64Pad (s : List Char) : List Char :=
  if s.length % 4 = 0 then
    match s.reverse with
    | '=' :: '=' :: rest => rest.reverse
    | '=' :: rest => rest.reverse
    | _ => s
  else s

/-- Model of `base64ToArrayBuffer` (lines 358-365): the platform `atob`
(forgiving-base64 decode) composed with the `charCodeAt` loop; `none`
models the `InvalidCharacterError` that `atob` throws on malformed input,
which the source does not catch locally — it propagates to the per-line
`catch` of line 324, dropping the whole fragment. -/
def atobBytes (s : String) : Option (List Nat) :=
  b64DecodeChars (stripB64Pad (s.data.filter (fun c => !isB64Ws c)))

/-! ## Stream processing loop (lines 260-328) -/

/-- One fragment as extracted from a complete line: decoded audio bytes and
the raw entries of its `timestamps` array. -/
structure Fragment where
  audio : List Nat
  tss : List Json
deriving Repr

/-- Per-parsed-value handling of lines 286-304: a fragment is produced only
when `chunkJson.audio` is truthy; its `timestamps` entries are taken
wholesale when the field holds an array (arrays are always truthy), with no
per-entry validation.  When `atob` throws on the audio text the exception
reaches the per-line `catch` (line 324) and the whole fragment, timestamps
included, is dropped (`none`).  A truthy non-string audio value, which the
source would coerce to a string inside `atob`, is outside this model
(`none`): the coercion of numbers goes through JavaScript's IEEE-double
formatting, which the rational number model cannot represent. -/
def handleJson (j : Json) : Option Fragment :=
  match getField j "audio" with
  | some a =>
    if jsTruthy a then
      match a with
      | Json.jstr s =>
        match atobBytes s with
        | some bytes =>
          some { audio := bytes
                 tss :=
                   match getField j "timestamps" with
                   | some (Json.jarr es) => es
                   | _ => [] }
        | none => none
      | _ => none
    else none
  | none => none

/-- Per-line handling of lines 281-327: blank lines are skipped, lines that
fail to parse are logged and skipped, and parsed values go through
`handleJson`. -/
def handleLine (line : List Char) : Option Fragment :=
  if line.all Char.isWhitespace then none
  else
    match parseJson line with
    | some j => handleJson j
    | none => none

/-- Prepend text to the first piece of a split result. -/
def consHead (s : List Char) : List (List Char) → List (List Char)
  | [] => [s]
  | l :: ls => (s ++ l) :: ls

/-- JavaScript `s.split('\n')`: the result is always non-empty and the
separators are removed. -/
def splitNl : List Char → List (List Char)
  | [] => [[]]
  | c :: cs => if c = '\n' then [] :: splitNl cs else consHead [c] (splitNl cs)

/-- Read-loop state: the held-over incomplete line and the fragments
emitted so far. -/
structure StreamState where
  incompleteChunk : List Char
  fragments : List Fragment

/-- One iteration of the read loop (lines 274-327): prepend the held-over
text, split on newlines, hold the last piece over (`lines.pop()`), and
process every complete line. -/
def processRead (st : StreamState) (textChunk : List Char) : StreamState :=
  let lines := splitNl (st.incompleteChunk ++ textChunk)
  { incompleteChunk := lines.getLastD []
    fragments := st.fragments ++ lines.dropLast.filterMap handleLine }

/-- Fragments emitted by the whole read loop on a sequence of reads.  Note
that after the loop the source never parses the remaining
`incompleteChunk` (lines 330-344): a final line not terminated by a
newline is dropped. -/
def streamFragments (reads : List (List Char)) : List Fragment :=
  (reads.foldl processRead ⟨[], []⟩).fragments

/-- Decoded audio byte sequences, in emission order. -/
def streamEmissions (reads : List (List Char)) : List (List Nat) :=
  (streamFragments reads).map Fragment.audio

/-- Accumulated `timestamps` entries (`allTimestamps`, lines 262, 301-304),
in emission order. -/
def streamTimestampsJson (reads : List (List Char)) : List Json :=
  ((streamFragments reads).map Fragment.tss).flatten

/-- Last line of a text, as held over by the read loop. -/
def lastLine (cs : List Char) : List Char := (splitNl cs).getLastD []

/-- Complete (newline-terminated) lines of a text, in order. -/
def completeLines (cs : List Char) : List (List Char) := (splitNl cs).dropLast

/-! ## Split-invariance of the line parser -/

theorem consHead_ne_nil (s : List Char) (l : List (List Char)) : consHead s l ≠ [] := by
  cases l <;> simp [consHead]

theorem consHead_nil (l : List (List Char)) (h : l ≠ []) : consHead [] l = l := by
  cases l with
  | nil => exact absurd rfl h
  | cons x xs => simp [consHead]

theorem consHead_consHead (s₁ s₂ : List Char) (l : List (List Char)) :
    consHead s₁ (consHead s₂ l) = consHead (s₁ ++ s₂) l := by
  cases l <;> simp [consHead]

theorem splitNl_ne_nil (cs : List Char) : splitNl cs ≠ [] := by
  cases cs with
  | nil => simp [splitNl]
  | cons c cs =>
    by_cases h : c = '\n'
    · simp [splitNl, h]
    · simp only [splitNl, if_neg h]
      exact consHead_ne_nil _ _

theorem splitNl_cons_of_ne (c : Char) (cs : List Char) (h : ¬ c = '\n') :
    splitNl (c :: cs) = consHead [c] (splitNl cs) := by
  simp [splitNl, h]

theorem splitNl_cons_nl (cs : List Char) : splitNl ('\n' :: cs) = [] :: splitNl cs := by
  simp [splitNl]

/-- Splitting text that contains no newline leaves it glued to the first
piece of the rest. -/
theorem splitNl_no_nl_append (s t : List Char) (h : '\n' ∉ s) :
    splitNl (s ++ t) = consHead s (splitNl t) := by
  induction s with
  | nil => rw [List.nil_append, consHead_nil _ (splitNl_ne_nil t)]
  | cons c s ih =>
    have hc : ¬ c = '\n' := by
      intro hc; exact h (by simp [hc])
    have hs : '\n' ∉ s := fun hm => h (List.mem_cons_of_mem _ hm)
    rw [List.cons_append, splitNl_cons_of_ne c _ hc, ih hs, consHead_consHead]
    rfl

/-- A split never carries a newline into its last piece. -/
theorem no_nl_lastLine (cs : List Char) : '\n' ∉ lastLine cs := by
  induction cs with
  | nil => simp [lastLine, splitNl]
  | cons c cs ih =>
    by_cases h : c = '\n'
    · subst h
      unfold lastLine at ih ⊢
      rw [splitNl_cons_nl, List.getLastD_cons]
      exact ih
    · unfold lastLine at ih ⊢
      rw [splitNl_cons_of_ne c _ h]
      match hx : splitNl cs with
      | [] => exact absurd hx (splitNl_ne_nil cs)
      | [x] =>
        rw [hx] at ih
        rw [List.getLastD_cons, List.getLastD_nil] at ih
        show '\n' ∉ ((c :: x) :: []).getLastD []
        rw [List.getLastD_cons, List.getLastD_nil]
        intro hmem
        rcases List.mem_cons.mp hmem with h1 | h2
        · exact h h1.symm
        · exact ih h2
      | x :: y :: ys =>
        rw [hx] at ih
        show '\n' ∉ ((c :: x) :: y :: ys).getLastD []
        rw [List.getLastD_cons] at ih ⊢
        rw [List.getLastD_eq_getLast?] at ih
        rw [List.getLastD_eq_getLast?]
        cases hg : (y :: ys).getLast? with
        | none => simp at hg
        | some g =>
          rw [hg] at ih
          simp only [Option.getD_some] at ih ⊢
          exact ih

/-- The held-over piece only depends on the text through `splitNl`, and a
leading newline shifts the split by one empty line. -/
theorem lastLine_cons_nl (a : List Char) : lastLine ('\n' :: a) = lastLine a := by
  unfold lastLine
  rw [splitNl_cons_nl, List.getLastD_cons]

/-- Homomorphism of `splitNl` over append: the last piece of the first part
glues onto the first piece of the second part. -/
theorem splitNl_append (a b : List Char) :
    splitNl (a ++ b) = (splitNl a).dropLast ++ consHead (lastLine a) (splitNl b) := by
  induction a with
  | nil =>
    rw [List.nil_append]
    have h1 : lastLine [] = [] := rfl
    rw [h1]
    show splitNl b = ([[]] : List (List Char)).dropLast ++ consHead [] (splitNl b)
    rw [consHead_nil _ (splitNl_ne_nil b)]
    rfl
  | cons c a ih =>
    by_cases h : c = '\n'
    · subst h
      rw [List.cons_append, splitNl_cons_nl, splitNl_cons_nl, lastLine_cons_nl, ih]
      rw [List.dropLast_cons_of_ne_nil (splitNl_ne_nil a), List.cons_append]
    · rw [List.cons_append, splitNl_cons_of_ne c (a ++ b) h, ih,
        splitNl_cons_of_ne c a h]
      match hx : splitNl a with
      | [] => exact absurd hx (splitNl_ne_nil a)
      | [x] =>
        have hl2 : lastLine a = x := by
          unfold lastLine; rw [hx]; rfl
        have hl : lastLine (c :: a) = c :: x := by
          unfold lastLine
          rw [splitNl_cons_of_ne c a h, hx]
          rfl
        rw [hl2, hl, List.dropLast_single, List.nil_append, consHead_consHead]
        simp only [consHead, List.singleton_append, List.dropLast_single, List.nil_append]
      | x :: y :: ys =>
        have hl2 : lastLine a = (y :: ys).getLastD x := by
          unfold lastLine
          rw [hx, List.getLastD_cons]
        have hl : lastLine (c :: a) = (y :: ys).getLastD x := by
          unfold lastLine
          rw [splitNl_cons_of_ne c a h, hx]
          show ((c :: x) :: y :: ys).getLastD [] = _
          rw [List.getLastD_cons, List.getLastD_eq_getLast?]
          rw [List.getLastD_eq_getLast?]
          cases hg : (y :: ys).getLast? with
          | none => simp at hg
          | some g => rfl
        rw [hl2, hl]
        try simp only [List.dropLast_cons₂, consHead, List.cons_append, List.singleton_append]

/-- Last piece of a concatenation, ignoring the left part's complete lines. -/
theorem getLastD_append_right (l₁ l₂ : List (List Char)) (h : l₂ ≠ []) :
    (l₁ ++ l₂).getLastD [] = l₂.getLastD [] := by
  rw [List.getLastD_eq_getLast?, List.getLastD_eq_getLast?, List.getLast?_append]
  cases hg : l₂.getLast? with
  | none => exact absurd (List.getLast?_eq_none_iff.mp hg) h
  | some g => rfl

/-- The complete lines of a concatenation are the left part's complete
lines followed by the complete lines of the held-over piece glued to the
right part. -/
theorem completeLines_append (a b : List Char) :
    completeLines (a ++ b) = completeLines a ++ completeLines (lastLine a ++ b) := by
  unfold completeLines
  rw [splitNl_append a b, List.dropLast_append_of_ne_nil _ (consHead_ne_nil _ _),
    splitNl_no_nl_append (lastLine a) b (no_nl_lastLine a)]

/-- The held-over piece of a concatenation is the held-over piece of the
left part's held-over piece glued to the right part. -/
theorem lastLine_append (a b : List Char) :
    lastLine (a ++ b) = lastLine (lastLine a ++ b) := by
  have h2 : splitNl (lastLine a ++ b) = consHead (lastLine a) (splitNl b) :=
    splitNl_no_nl_append (lastLine a) b (no_nl_lastLine a)
  unfold lastLine
  rw [splitNl_append a b, getLastD_append_right _ _ (consHead_ne_nil _ _)]
  rw [show splitNl ((splitNl a).getLastD [] ++ b) =
    consHead ((splitNl a).getLastD []) (splitNl b) from h2]
  rfl

/-- Splitting text with no newline yields just that text. -/
theorem splitNl_no_nl (s : List Char) (h : '\n' ∉ s) : splitNl s = [s] := by
  have h1 := splitNl_no_nl_append s [] h
  rw [List.append_nil] at h1
  rw [h1]
  show consHead s [[]] = [s]
  simp [consHead]

/-- Loop invariant of the read loop: starting from a held-over piece with
no newline, folding the reads produces exactly the held-over piece and the
per-complete-line fragments of the total text seen. -/
theorem foldl_processRead (rs : List (List Char)) (inc : List Char) (fs : List Fragment)
    (hinc : '\n' ∉ inc) :
    rs.foldl processRead ⟨inc, fs⟩ =
      ⟨lastLine (inc ++ rs.flatten),
        fs ++ (completeLines (inc ++ rs.flatten)).filterMap handleLine⟩ := by
  induction rs generalizing inc fs with
  | nil =>
    simp only [List.foldl_nil, List.flatten_nil, List.append_nil]
    have h1 : splitNl inc = [inc] := splitNl_no_nl inc hinc
    have h2 : lastLine inc = inc := by unfold lastLine; rw [h1]; rfl
    have h3 : completeLines inc = [] := by unfold completeLines; rw [h1]; rfl
    rw [h2, h3]
    simp
  | cons r rs ih =>
    simp only [List.foldl_cons, List.flatten_cons]
    have hpr : processRead ⟨inc, fs⟩ r =
        ⟨lastLine (inc ++ r), fs ++ (completeLines (inc ++ r)).filterMap handleLine⟩ := rfl
    rw [hpr, ih _ _ (no_nl_lastLine _), ← List.append_assoc,
      lastLine_append (inc ++ r) rs.flatten, completeLines_append (inc ++ r) rs.flatten]
    simp [List.filterMap_append, List.append_assoc]

/-- The fragments emitted by the read loop depend only on the concatenated
stream text: they are the per-line results over all complete lines, in
order, each line contributing exactly once. -/
theorem streamFragments_eq (reads : List (List Char)) :
    streamFragments reads = (completeLines reads.flatten).filterMap handleLine := by
  unfold streamFragments
  rw [foldl_processRead reads [] [] (by simp)]
  simp

/-! ## Claim C1: incomplete-line buffering -/

/-- First read of the spec's concrete split test: one full record plus the
beginning of a second record, cut inside its JSON text. -/
def read1 : List Char := "\x7b\"audio\":\"QQ==\",\"timestamps\":[]\x7d\n\x7b\"audio\"".data

/-- Second read of the spec's concrete split test: the rest of the second
record. -/
def read2 : List Char := ":\"Qg==\",\"timestamps\":[]\x7d\n".data

/-- A complete JSON record not terminated by a newline. -/
def readNoNewline : List Char := "\x7b\"audio\":\"QQ==\",\"timestamps\":[]\x7d".data

/-- Counterexample for C1: a record terminated only by end-of-stream is
never parsed.  Feeding the single read `{"audio":"QQ==","timestamps":[]}`
with no trailing newline emits no fragment at all (the read loop drops the
held-over line when the stream ends), although the very same text followed
by a newline emits the decoded record — so the record is parsed zero
times, not exactly once, when its terminator is end-of-stream. -/
theorem streamParser_eos_record_dropped :
    streamEmissions [readNoNewline] = [] ∧
    streamEmissions [readNoNewline ++ ['\n']] = [[65]] := by
  constructor
  · decide
  · decide

/-- C1 (amended): the read loop holds the last, possibly-incomplete line of
each read over to the next read, and the emitted fragments are exactly the
per-line decodings of the newline-terminated lines of the concatenated
stream text, in order — each such record is parsed exactly once, at
whatever read offsets the stream is split, but a final record terminated
only by end-of-stream is dropped, never parsed.  In particular, feeding the
two reads of the spec's concrete test yields exactly the decodings of
`QQ==` and `Qg==`, in that order. -/
theorem streamParser_exactly_once :
    (∀ reads : List (List Char),
      streamFragments reads = (completeLines reads.flatten).filterMap handleLine) ∧
    streamEmissions [read1, read2] = [[65], [66]] := by
  refine ⟨streamFragments_eq, ?_⟩
  decide

/-! ## Claim C5: timestamp entries are not validated -/

/-- Specification-side shape check of a timestamp entry (`word` is a
string, `start_time` and `end_time` numeric).  The source performs no such
check. -/
def validTsEntry (j : Json) : Bool :=
  match getField j "word", getField j "start_time", getField j "end_time" with
  | some (Json.jstr _), some (Json.jnum _), some (Json.jnum _) => true
  | _, _, _ => false

/-- A streamed line whose single timestamp entry is invalid: its `word`
field is the number 5, not a string. -/
def badTsLine : List Char :=
  "\x7b\"audio\":\"QQ==\",\"timestamps\":[\x7b\"word\":5,\"start_time\":0,\"end_time\":1\x7d]\x7d\n".data

/-- The invalid timestamp entry carried by `badTsLine`. -/
def badTsEntry : Json :=
  Json.jobj [("word", Json.jnum 5), ("start_time", Json.jnum 0), ("end_time", Json.jnum 1)]

/-- Counterexample for C5: the entry failing shape validation is appended
to the timestamp sequence instead of being dropped (and the fragment's
audio is still processed — the session is indeed not aborted). -/
theorem timestamps_not_validated :
    streamTimestampsJson [badTsLine] = [badTsEntry] ∧
    validTsEntry badTsEntry = false ∧
    streamEmissions [badTsLine] = [[65]] :=
  ⟨rfl, rfl, by decide⟩

/-- A fragment whose audio is not valid base64 is dropped whole: `atob`
throws on `"!"`, the per-line catch swallows the exception, and neither
audio bytes nor timestamp entries survive. -/
theorem handleJson_invalid_base64_drops :
    atobBytes "!" = none ∧
    handleJson (Json.jobj [("audio", Json.jstr "!"), ("timestamps", Json.jarr [Json.jnull])]) =
      none :=
  ⟨rfl, rfl⟩

/-- C5 (amended): for every received fragment whose `audio` is a non-empty
string and whose `timestamps` field holds an array, the fragment's fate is
decided by the base64 decode alone: when `atob` succeeds, all entries of
the timestamps array — validated or not — are appended and the fragment is
processed normally (the session is not aborted); when `atob` throws, the
whole fragment, timestamps included, is dropped by the per-line catch.  No
per-entry validation happens on either path; only the `Array.isArray`
check gates the append. -/
theorem timestamps_appended_wholesale (j : Json) (a : String) (es : List Json)
    (h1 : getField j "audio" = some (Json.jstr a)) (h2 : a ≠ "")
    (h3 : getField j "timestamps" = some (Json.jarr es)) :
    handleJson j = (atobBytes a).map (fun bytes => { audio := bytes, tss := es }) := by
  have ht : jsTruthy (Json.jstr a) = true := by
    simp [jsTruthy, h2]
  cases hab : atobBytes a with
  | none => simp [handleJson, h1, h3, ht, hab]
  | some bytes => simp [handleJson, h1, h3, ht, hab]

/-- Witness for the amended C5: a fragment whose timestamps array holds the
single invalid entry `null` still gets that entry appended, its audio
being valid base64. -/
theorem timestamps_appended_wholesale_witness :
    handleJson (Json.jobj [("audio", Json.jstr "QQ=="), ("timestamps", Json.jarr [Json.jnull])]) =
      some { audio := [65], tss := [Json.jnull] } :=
  timestamps_appended_wholesale
    (Json.jobj [("audio", Json.jstr "QQ=="), ("timestamps", Json.jarr [Json.jnull])])
    "QQ==" [Json.jnull] rfl (by decide) rfl

/-! ## Text alignment engine (alignment.js, src/unnamed/part_009) -/

/-- One alignment record: `{ originalWord, ttsWord, isMatch, timestamp,
type }`, with `null` fields modelled as `none`. -/
structure ARec where
  originalWord : Option String
  ttsWord : Option String
  isMatch : Bool
  timestamp : Option WordTimestamp
  type : String
deriving Repr, DecidableEq, Inhabited

/-- Score for matching tokens. -/
def MATCH_SCORE : Int := 2

/-- Penalty for mismatched tokens. -/
def MISMATCH_PENALTY : Int := -1

/-- Penalty for introducing a gap. -/
def GAP_PENALTY : Int := -1

/-- The Needleman-Wunsch scoring matrix of `alignSequences` (part_009 lines
84-109): `nwMatrix x y i j` is `matrix[i][j]`; row/column 0 accumulate gap
penalties and the interior takes the best of match/mismatch, deletion and
insertion. -/
def nwMatrix (x y : List String) : Nat → Nat → Int
  | 0, 0 => 0
  | i + 1, 0 => nwMatrix x y i 0 + GAP_PENALTY
  | 0, j + 1 => nwMatrix x y 0 j + GAP_PENALTY
  | i + 1, j + 1 =>
    max (max (nwMatrix x y i j + (if x[i]? == y[j]? then MATCH_SCORE else MISMATCH_PENALTY))
        (nwMatrix x y i (j + 1) + GAP_PENALTY))
      (nwMatrix x y (i + 1) j + GAP_PENALTY)
termination_by i j => (i, j)

/-- Match/mismatch record pushed by the diagonal traceback step (part_009
lines 120-126); `i`, `j` are the zero-based token indices. -/
def matchRec (x y : List String) (tss : List WordTimestamp) (i j : Nat) : ARec where
  originalWord := x[i]?
  ttsWord := y[j]?
  isMatch := x[i]? == y[j]?
  timestamp := tss[j]?
  type := "match"

/-- Insertion record (gap in the original sequence, lines 130-136). -/
def insRec (y : List String) (tss : List WordTimestamp) (j : Nat) : ARec where
  originalWord := none
  ttsWord := y[j]?
  isMatch := false
  timestamp := tss[j]?
  type := "insertion"

/-- Deletion record (gap in the TTS sequence, lines 140-146). -/
def delRec (x : List String) (i : Nat) : ARec where
  originalWord := x[i]?
  ttsWord := none
  isMatch := false
  timestamp := none
  type := "deletion"

/-- Traceback through the scoring matrix (lines 111-149): prefer the
diagonal when its score explains the cell, then insertion, then deletion.
The source builds the list by `unshift` while decrementing, which is the
append-on-return of this recursion. -/
def traceback (x y : List String) (tss : List WordTimestamp) : Nat → Nat → List ARec
  | 0, 0 => []
  | 0, j + 1 => traceback x y tss 0 j ++ [insRec y tss j]
  | i + 1, 0 => traceback x y tss i 0 ++ [delRec x i]
  | i + 1, j + 1 =>
    if nwMatrix x y (i + 1) (j + 1) =
        nwMatrix x y i j + (if x[i]? == y[j]? then MATCH_SCORE else MISMATCH_PENALTY) then
      traceback x y tss i j ++ [matchRec x y tss i j]
    else if nwMatrix x y (i + 1) (j + 1) = nwMatrix x y (i + 1) j + GAP_PENALTY then
      traceback x y tss (i + 1) j ++ [insRec y tss j]
    else
      traceback x y tss i (j + 1) ++ [delRec x i]
termination_by i j => (i, j)

/-- JavaScript truthiness of a nullable string field. -/
def truthyS : Option String → Bool
  | none => false
  | some s => decide (s ≠ "")

/-- The apostrophe as a one-character string. -/
def apostropheS : String := String.mk [Char.ofNat 39]

/-- Contraction-fragment test of part_009 lines 177-178. -/
def isContractionFragment (w : Option String) : Bool :=
  w == some apostropheS || w == some "t" || w == some "s" ||
    w == some "re" || w == some "ve" || w == some "ll"

/-- Condition of the contraction merge (part_009 lines 175-178). -/
def mergeCond (cur nxt : ARec) : Bool :=
  truthyS cur.ttsWord && truthyS nxt.ttsWord && truthyS cur.originalWord &&
    !truthyS nxt.originalWord && isContractionFragment nxt.ttsWord

/-- Merged contraction record (part_009 lines 180-190).  When both merged
records carry a timestamp the times are taken exactly as in the source;
when exactly one is null the source's ternaries fall back to the other.
The remaining case — both timestamps null, where line 186 would throw a
TypeError — is collapsed to a default here; it requires a merge between a
deletion and a timestamp-less insertion and is unreachable from the
identical-sequence theorem below, whose records all agree on
original/TTS words so the merge condition never fires. -/
def mergedRec (cur nxt : ARec) : ARec :=
  let w := cur.ttsWord.getD "" ++ nxt.ttsWord.getD ""
  { originalWord := cur.originalWord
    ttsWord := some w
    isMatch := true
    timestamp := some
      { word := w
        start_time :=
          match cur.timestamp with
          | some t => t.start_time
          | none => (nxt.timestamp.getD default).start_time
        end_time :=
          match nxt.timestamp with
          | some t => t.end_time
          | none => (cur.timestamp.getD default).end_time }
    type := "contraction" }

/-- Post-processing pass of part_009 lines 162-203: walk the alignment,
merging a record with its successor when the contraction condition holds
(consuming both), otherwise keeping the record. -/
def postProcessAlignment : List ARec → List ARec
  | [] => []
  | [a] => [a]
  | a :: b :: rest =>
    if mergeCond a b then mergedRec a b :: postProcessAlignment rest
    else a :: postProcessAlignment (b :: rest)

/-- Embedding of `alignSequences` (part_009 lines 77-155): score matrix,
traceback from the bottom-right corner, then the contraction
post-processing pass. -/
def alignSequences (originalTokens ttsTokens : List String)
    (ttsTimestamps : List WordTimestamp) : List ARec :=
  postProcessAlignment
    (traceback originalTokens ttsTokens ttsTimestamps originalTokens.length ttsTokens.length)

/-! ## Alignment of identical sequences (C6) -/

theorem nwMatrix_row0 (x y : List String) : ∀ i, nwMatrix x y i 0 = -(i : Int) := by
  intro i
  induction i with
  | zero => simp [nwMatrix]
  | succ i ih =>
    rw [nwMatrix, ih]
    unfold GAP_PENALTY
    push_cast
    ring

theorem nwMatrix_col0 (x y : List String) : ∀ j, nwMatrix x y 0 j = -(j : Int) := by
  intro j
  induction j with
  | zero => simp [nwMatrix]
  | succ j ih =>
    rw [nwMatrix, ih]
    unfold GAP_PENALTY
    push_cast
    ring

/-- Every matrix entry is bounded by twice each of its coordinates: a path
to `(i, j)` has at most `min i j` diagonal steps, each scoring at most 2,
and gaps only lose score. -/
theorem nwMatrix_le_two (x y : List String) :
    ∀ i j, nwMatrix x y i j ≤ 2 * (i : Int) ∧ nwMatrix x y i j ≤ 2 * (j : Int) := by
  intro i
  induction i with
  | zero =>
    intro j
    rw [nwMatrix_col0]
    constructor <;> omega
  | succ i ih =>
    intro j
    induction j with
    | zero =>
      rw [nwMatrix_row0]
      constructor <;> omega
    | succ j ihj =>
      have h1 := ih j
      have h2 := ih (j + 1)
      have h3 := ihj
      have hs : (if x[i]? == y[j]? then MATCH_SCORE else MISMATCH_PENALTY) ≤ 2 := by
        split <;> simp [MATCH_SCORE, MISMATCH_PENALTY]
      rw [nwMatrix]
      unfold GAP_PENALTY
      constructor <;> push_cast <;> omega

/-- On the diagonal of the self-alignment, the score is exactly twice the
index: the diagonal match is always available and nothing beats it. -/
theorem nwMatrix_diag (x : List String) : ∀ k, nwMatrix x x k k = 2 * (k : Int) := by
  intro k
  induction k with
  | zero => simp [nwMatrix]
  | succ k ih =>
    have hbeq : (x[k]? == x[k]?) = true := by simp
    have h1 := (nwMatrix_le_two x x k (k + 1)).1
    have h2 := (nwMatrix_le_two x x (k + 1) k).2
    rw [nwMatrix, ih]
    simp only [hbeq, if_true]
    unfold MATCH_SCORE GAP_PENALTY
    push_cast
    omega

/-- The traceback of the self-alignment takes the diagonal everywhere,
producing one match record per token, in order. -/
theorem traceback_diag (x : List String) (tss : List WordTimestamp) :
    ∀ k, traceback x x tss k k = (List.range k).map (fun i => matchRec x x tss i i) := by
  intro k
  induction k with
  | zero => simp [traceback]
  | succ k ih =>
    have hbeq : (x[k]? == x[k]?) = true := by simp
    have hcond : nwMatrix x x (k + 1) (k + 1) =
        nwMatrix x x k k + (if x[k]? == x[k]? then MATCH_SCORE else MISMATCH_PENALTY) := by
      simp only [hbeq, if_true]
      rw [nwMatrix_diag, nwMatrix_diag]
      unfold MATCH_SCORE
      push_cast
      ring
    rw [traceback, if_pos hcond, ih, List.range_succ, List.map_append]
    rfl

/-- The contraction pass never fires on records whose original and TTS
words agree, so it is the identity there. -/
theorem postProcess_id (l : List ARec) (h : ∀ r ∈ l, r.originalWord = r.ttsWord) :
    postProcessAlignment l = l := by
  induction l with
  | nil => rfl
  | cons a t ih =>
    cases t with
    | nil => rfl
    | cons b rest =>
      have hb : b.originalWord = b.ttsWord := h b (by simp)
      have hcond : mergeCond a b = false := by
        unfold mergeCond
        rw [← hb]
        cases hbo : truthyS b.originalWord <;> simp [hbo]
      rw [postProcessAlignment, hcond]
      simp only [Bool.false_eq_true, if_false]
      rw [ih (fun r hr => h r (List.mem_cons_of_mem a hr))]

/-- C6: aligning a token sequence with an exactly equal token sequence
produces only match records with a 1:1 index correspondence — record `k`
pairs token `k` of one sequence with token `k` of the other — and zero
insertion and zero deletion records. -/
theorem alignSequences_identical_all_match (x : List String) (tss : List WordTimestamp) :
    alignSequences x x tss = (List.range x.length).map (fun k => matchRec x x tss k k) ∧
    (alignSequences x x tss).length = x.length ∧
    ∀ r ∈ alignSequences x x tss,
      r.type = "match" ∧ r.isMatch = true ∧ r.originalWord = r.ttsWord := by
  have htr := traceback_diag x tss x.length
  have hpp : postProcessAlignment ((List.range x.length).map (fun i => matchRec x x tss i i)) =
      (List.range x.length).map (fun i => matchRec x x tss i i) := by
    apply postProcess_id
    intro r hr
    rcases List.mem_map.mp hr with ⟨k, _, rfl⟩
    rfl
  have hmain : alignSequences x x tss =
      (List.range x.length).map (fun k => matchRec x x tss k k) := by
    unfold alignSequences
    rw [htr, hpp]
  refine ⟨hmain, ?_, ?_⟩
  · rw [hmain]
    simp
  · intro r hr
    rw [hmain] at hr
    rcases List.mem_map.mp hr with ⟨k, _, rfl⟩
    refine ⟨rfl, ?_, rfl⟩
    simp [matchRec]

/-! ## Position mapping (`mapAlignedPositionsInText`, part_009 lines 212-353) -/

/-- One position record `{ word, start, end, timestamp, isMatch,
alignIndex }`; the source's `end` field is named `stop` here because `end`
is reserved in Lean. -/
structure PosRec where
  word : String
  start : Nat
  stop : Nat
  timestamp : Option WordTimestamp
  isMatch : Bool
  alignIndex : Nat
deriving Repr, DecidableEq, Inhabited

/-- JavaScript `\w` word character class. -/
def isWordChar (c : Char) : Bool :=
  ('a' ≤ c && c ≤ 'z') || ('A' ≤ c && c ≤ 'Z') || ('0' ≤ c && c ≤ '9') || c = '_'

/-- Normalisation `word.toLowerCase().replace(/[^\w]/g, '')` used by the
position-mapping match tests (lines 239-240). -/
def normWord (s : String) : String :=
  String.mk ((s.data.map Char.toLower).filter isWordChar)

/-- Contiguous-sublist test on character lists. -/
def listIsInfixOf (needle hay : List Char) : Bool :=
  match hay with
  | [] => needle.isEmpty
  | _ :: t => needle.isPrefixOf hay || listIsInfixOf needle t

/-- JavaScript `a.includes(b)`: substring containment. -/
def jsIncludes (a b : String) : Bool := listIsInfixOf b.data a.data

/-- First (normal) mapping pass (lines 224-271).  Arguments: remaining
word/whitespace tokens, current character position, absolute index of the
head of the remaining alignment suffix, and that suffix.  A word matching
the current alignment item is recorded at the current position; an
alignment item with no original word or no timestamp is skipped while the
same word is retried (`alignmentIndex++; i--`); a non-matching word is
passed over without consuming the alignment item. -/
def mapPositionsFirstPass : List String → Nat → Nat → List ARec → List PosRec
  | [], _, _, _ => []
  | w :: ws, pos, k, al =>
    if w.data.all Char.isWhitespace then mapPositionsFirstPass ws (pos + w.length) k al
    else
      match al with
      | [] => mapPositionsFirstPass ws (pos + w.length) k []
      | a :: al' =>
        if truthyS a.originalWord && a.timestamp.isSome then
          if normWord w == normWord (a.originalWord.getD "") ||
              jsIncludes (normWord w) (normWord (a.originalWord.getD "")) ||
              jsIncludes (normWord (a.originalWord.getD "")) (normWord w) then
            { word := w, start := pos, stop := pos + w.length, timestamp := a.timestamp,
              isMatch := a.isMatch, alignIndex := k } ::
              mapPositionsFirstPass ws (pos + w.length) (k + 1) al'
          else mapPositionsFirstPass ws (pos + w.length) k (a :: al')
        else mapPositionsFirstPass (w :: ws) pos (k + 1) al'
termination_by ws _ _ al => ws.length + al.length
decreasing_by all_goals simp <;> omega

/-- Similarity score of one lookahead candidate (lines 300-321); `none`
when the candidate lacks an original word or timestamp. -/
def candScore (w : String) (a : ARec) : Option Int :=
  if truthyS a.originalWord && a.timestamp.isSome then
    some
      (if normWord w == normWord (a.originalWord.getD "") then 2
       else if jsIncludes (normWord w) (normWord (a.originalWord.getD "")) ||
           jsIncludes (normWord (a.originalWord.getD "")) (normWord w) then 1
       else 0)
  else none

/-- Best-of-5 lookahead (lines 296-322): fold over the next five alignment
items keeping the first strictly-better score; returns (relative index,
score), `(-1, -1)` when no candidate qualifies. -/
def bestLookahead (w : String) (al : List ARec) : Int × Int :=
  (al.take 5).enum.foldl
    (fun acc p =>
      match candScore w p.2 with
      | some s => if s > acc.2 then ((p.1 : Int), s) else acc
      | none => acc)
    (-1, -1)

/-- Second (aggressive) mapping pass (lines 284-347): for each word, pick
the best-scoring item among the next five alignment items; on success
record the word and resume after the chosen item, otherwise skip one
alignment item. -/
def mapPositionsSecondPass : List String → Nat → Nat → List ARec → List PosRec
  | [], _, _, _ => []
  | w :: ws, pos, k, al =>
    if w.data.all Char.isWhitespace then mapPositionsSecondPass ws (pos + w.length) k al
    else
      match al with
      | [] => mapPositionsSecondPass ws (pos + w.length) k []
      | _ :: _ =>
        let best := bestLookahead w al
        if 0 ≤ best.1 then
          let j := best.1.toNat
          let a := al.getD j default
          { word := w, start := pos, stop := pos + w.length, timestamp := a.timestamp,
            isMatch := a.isMatch, alignIndex := k + j } ::
            mapPositionsSecondPass ws (pos + w.length) (k + j + 1) (al.drop (j + 1))
        else mapPositionsSecondPass ws (pos + w.length) (k + 1) (al.drop 1)

/-- Maximal runs of whitespace / non-whitespace characters. -/
def chunkRuns : List Char → List (List Char)
  | [] => []
  | c :: cs =>
    match chunkRuns cs with
    | [] => [[c]]
    | [] :: rs => [c] :: [] :: rs
    | (d :: r) :: rs =>
      if Char.isWhitespace c == Char.isWhitespace d then (c :: d :: r) :: rs
      else [c] :: (d :: r) :: rs

/-- JavaScript `text.split(/(\s+)/)` (line 222): split on whitespace runs
keeping the separators, with an empty first/last piece when the text starts
or ends with whitespace. -/
def jsSplitWsKeep (s : String) : List String :=
  match chunkRuns s.data with
  | [] => [""]
  | rs =>
    let strs := rs.map (fun l => String.mk l)
    let strs1 := if (rs.headD []).all Char.isWhitespace then "" :: strs else strs
    if (rs.getLastD []).all Char.isWhitespace then strs1 ++ [""] else strs1

/-- Embedding of `mapAlignedPositionsInText` (lines 212-353): empty-input
guard, the normal pass, and the aggressive retry pass when fewer than half
of the alignment items were placed (`positions.length < alignment.length *
0.5`, i.e. `2 * positions.length < alignment.length`). -/
def mapAlignedPositionsInText (text : String) (alignment : List ARec) : List PosRec :=
  if text = "" || alignment.isEmpty then []
  else
    let words := jsSplitWsKeep text
    let positions := mapPositionsFirstPass words 0 0 alignment
    if 2 * positions.length < alignment.length then mapPositionsSecondPass words 0 0 alignment
    else positions

/-! ## Monotonicity of the position mapping (C9) -/

/-- A word that is not all-whitespace is non-empty. -/
theorem length_pos_of_not_ws (w : String) (hws : ¬ w.data.all Char.isWhitespace = true) :
    0 < w.length := by
  rcases hw : w.data with _ | ⟨c, cs⟩
  · exact absurd (by simp [List.all_eq_true, hw]) hws
  · have hlen : w.length = w.data.length := rfl
    rw [hlen, hw]
    simp

/-- Every record of the first pass starts at or after the entry position,
and consecutive records start at strictly increasing positions. -/
theorem firstPass_mono (ws : List String) (pos k : Nat) (al : List ARec) :
    (∀ p ∈ mapPositionsFirstPass ws pos k al, pos ≤ p.start) ∧
    List.Chain' (fun p q => p.start < q.start) (mapPositionsFirstPass ws pos k al) := by
  induction ws, pos, k, al using mapPositionsFirstPass.induct with
  | case1 pos k al => simp [mapPositionsFirstPass]
  | case2 w ws pos k al hws ih =>
    have hstep : mapPositionsFirstPass (w :: ws) pos k al =
        mapPositionsFirstPass ws (pos + w.length) k al := by
      rw [mapPositionsFirstPass.eq_def]
      simp [hws]
    rw [hstep]
    exact ⟨fun p hp => Nat.le_trans (Nat.le_add_right pos w.length) (ih.1 p hp), ih.2⟩
  | case3 w ws pos k hws ih =>
    have hstep : mapPositionsFirstPass (w :: ws) pos k [] =
        mapPositionsFirstPass ws (pos + w.length) k [] := by
      rw [mapPositionsFirstPass.eq_def]
      simp [hws]
    rw [hstep]
    exact ⟨fun p hp => Nat.le_trans (Nat.le_add_right pos w.length) (ih.1 p hp), ih.2⟩
  | case4 w ws pos k hws a al' htr hm ih =>
    have hlen := length_pos_of_not_ws w hws
    have hstep : mapPositionsFirstPass (w :: ws) pos k (a :: al') =
        ⟨w, pos, pos + w.length, a.timestamp, a.isMatch, k⟩ ::
          mapPositionsFirstPass ws (pos + w.length) (k + 1) al' := by
      rw [mapPositionsFirstPass.eq_def]
      simp [hws, htr, hm]
    rw [hstep]
    constructor
    · intro p hp
      rcases List.mem_cons.mp hp with rfl | hmem
      · exact Nat.le_refl pos
      · exact Nat.le_trans (Nat.le_add_right pos w.length) (ih.1 p hmem)
    · rw [List.chain'_cons']
      refine ⟨?_, ih.2⟩
      intro q hq
      have hqm := List.mem_of_mem_head? hq
      have hqs := ih.1 q hqm
      show pos < q.start
      omega
  | case5 w ws pos k hws a al' htr hm ih =>
    have hstep : mapPositionsFirstPass (w :: ws) pos k (a :: al') =
        mapPositionsFirstPass ws (pos + w.length) k (a :: al') := by
      rw [mapPositionsFirstPass.eq_def]
      simp [hws, htr, hm]
    rw [hstep]
    exact ⟨fun p hp => Nat.le_trans (Nat.le_add_right pos w.length) (ih.1 p hp), ih.2⟩
  | case6 w ws pos k hws a al' htr ih =>
    have hstep : mapPositionsFirstPass (w :: ws) pos k (a :: al') =
        mapPositionsFirstPass (w :: ws) pos (k + 1) al' := by
      rw [mapPositionsFirstPass.eq_def]
      simp [hws, htr]
    rw [hstep]
    exact ih

/-- Every record of the aggressive-retry pass starts at or after the entry
position, and consecutive records start at strictly increasing
positions. -/
theorem secondPass_mono (ws : List String) :
    ∀ (pos k : Nat) (al : List ARec),
      (∀ p ∈ mapPositionsSecondPass ws pos k al, pos ≤ p.start) ∧
      List.Chain' (fun p q => p.start < q.start) (mapPositionsSecondPass ws pos k al) := by
  induction ws with
  | nil => intro pos k al; simp [mapPositionsSecondPass]
  | cons w ws ih =>
    intro pos k al
    by_cases hws : w.data.all Char.isWhitespace = true
    · have hstep : mapPositionsSecondPass (w :: ws) pos k al =
          mapPositionsSecondPass ws (pos + w.length) k al := by
        rw [mapPositionsSecondPass.eq_def]
        simp [hws]
      rw [hstep]
      have ih1 := ih (pos + w.length) k al
      exact ⟨fun p hp => Nat.le_trans (Nat.le_add_right pos w.length) (ih1.1 p hp), ih1.2⟩
    · cases al with
      | nil =>
        have hstep : mapPositionsSecondPass (w :: ws) pos k [] =
            mapPositionsSecondPass ws (pos + w.length) k [] := by
          rw [mapPositionsSecondPass.eq_def]
          simp [hws]
        rw [hstep]
        have ih1 := ih (pos + w.length) k []
        exact ⟨fun p hp => Nat.le_trans (Nat.le_add_right pos w.length) (ih1.1 p hp), ih1.2⟩
      | cons a al' =>
        by_cases hbest : 0 ≤ (bestLookahead w (a :: al')).1
        · have hlen := length_pos_of_not_ws w hws
          have hstep : mapPositionsSecondPass (w :: ws) pos k (a :: al') =
              { word := w, start := pos, stop := pos + w.length,
                timestamp := ((a :: al').getD (bestLookahead w (a :: al')).1.toNat default).timestamp,
                isMatch := ((a :: al').getD (bestLookahead w (a :: al')).1.toNat default).isMatch,
                alignIndex := k + (bestLookahead w (a :: al')).1.toNat } ::
                mapPositionsSecondPass ws (pos + w.length)
                  (k + (bestLookahead w (a :: al')).1.toNat + 1)
                  ((a :: al').drop ((bestLookahead w (a :: al')).1.toNat + 1)) := by
            rw [mapPositionsSecondPass.eq_def]
            simp [hws, hbest]
          rw [hstep]
          have ih1 := ih (pos + w.length) (k + (bestLookahead w (a :: al')).1.toNat + 1)
            ((a :: al').drop ((bestLookahead w (a :: al')).1.toNat + 1))
          constructor
          · intro p hp
            rcases List.mem_cons.mp hp with rfl | hm
            · exact Nat.le_refl pos
            · exact Nat.le_trans (Nat.le_add_right pos w.length) (ih1.1 p hm)
          · rw [List.chain'_cons']
            refine ⟨?_, ih1.2⟩
            intro q hq
            have hqs := ih1.1 q (List.mem_of_mem_head? hq)
            show pos < q.start
            omega
        · have hstep : mapPositionsSecondPass (w :: ws) pos k (a :: al') =
              mapPositionsSecondPass ws (pos + w.length) (k + 1) ((a :: al').drop 1) := by
            rw [mapPositionsSecondPass.eq_def]
            simp [hws, hbest]
          rw [hstep]
          have ih1 := ih (pos + w.length) (k + 1) ((a :: al').drop 1)
          exact ⟨fun p hp => Nat.le_trans (Nat.le_add_right pos w.length) (ih1.1 p hp), ih1.2⟩

/-- C9: the position list returned by `mapAlignedPositionsInText` is
monotonic in text order — each record's start offset is strictly greater
than the previous record's — and the same holds separately for the normal
pass and for the aggressive-retry pass, on any word list, entry position
and alignment input. -/
theorem mapAlignedPositions_monotone (text : String) (alignment : List ARec) :
    List.Chain' (fun p q => p.start < q.start) (mapAlignedPositionsInText text alignment) ∧
    (∀ (ws : List String) (pos k : Nat),
      List.Chain' (fun p q => p.start < q.start) (mapPositionsFirstPass ws pos k alignment)) ∧
    (∀ (ws : List String) (pos k : Nat),
      List.Chain' (fun p q => p.start < q.start) (mapPositionsSecondPass ws pos k alignment)) := by
  refine ⟨?_, fun ws pos k => (firstPass_mono ws pos k alignment).2,
    fun ws pos k => (secondPass_mono ws pos k alignment).2⟩
  unfold mapAlignedPositionsInText
  split
  · exact List.chain'_nil
  · show List.Chain' (fun p q => p.start < q.start)
      (if 2 * (mapPositionsFirstPass (jsSplitWsKeep text) 0 0 alignment).length <
          alignment.length then
        mapPositionsSecondPass (jsSplitWsKeep text) 0 0 alignment
      else mapPositionsFirstPass (jsSplitWsKeep text) 0 0 alignment)
    split
    · exact (secondPass_mono (jsSplitWsKeep text) 0 0 alignment).2
    · exact (firstPass_mono (jsSplitWsKeep text) 0 0 alignment).2

end TTS
